import Mathlib

set_option maxHeartbeats 1000000

/- Verification of the adversarial-search layer of the repository:
   the stubborn-greedy search (easyAI/AI/StubbornGreedy.py) and the two
   concrete games (ConnectFour.py, LastCoinStanding.py), checked against
   the natural-language specification. -/

/-- Python runtime errors that the stubborn-greedy code can raise. -/
inductive PyErr where
  | typeError
  | unboundLocalError
deriving DecidableEq

/-- Python values flowing through stubborn_greedy: ints, None and tuples.
down_the_rabbit_hole returns the tuple (best_branch_value, nplayer). -/
inductive PyVal where
  | pynone
  | int (n : Int)
  | tuple (xs : List PyVal)

mutual

/-- Python equality (==) on the values above: cross-type comparisons are
False, tuples compare elementwise and by length. -/
def pyEq : PyVal → PyVal → Bool
  | PyVal.pynone, PyVal.pynone => true
  | PyVal.int a, PyVal.int b => a == b
  | PyVal.tuple xs, PyVal.tuple ys => pyEqList xs ys
  | _, _ => false

def pyEqList : List PyVal → List PyVal → Bool
  | [], [] => true
  | x :: xs, y :: ys => pyEq x y && pyEqList xs ys
  | _, _ => false

end

mutual

/-- Python strict comparison (>): defined on two ints and on two tuples
(lexicographic, scanning with == for the first differing entry); every
other combination (None against an int, int against a tuple, and so on)
raises TypeError, rendered here as Option.none. -/
def pyGt : PyVal → PyVal → Option Bool
  | PyVal.int a, PyVal.int b => some (decide (b < a))
  | PyVal.tuple xs, PyVal.tuple ys => pyGtList xs ys
  | _, _ => Option.none

def pyGtList : List PyVal → List PyVal → Option Bool
  | [], [] => some false
  | [], _ :: _ => some false
  | _ :: _, [] => some true
  | x :: xs, y :: ys => if pyEq x y then pyGtList xs ys else pyGt x y

end

/-- Rendering of an optional int (best_branch_value) as a Python value. -/
def optPy : Option Int → PyVal
  | Option.none => PyVal.pynone
  | some n => PyVal.int n

/-- A two-player game as consumed by stubborn_greedy: the interface of an
easyAI game object (possible_moves, make_move, and the nplayer field).
Applying a move is rendered functionally: the source always calls
make_move on a fresh copy.deepcopy of the relevant object, never sharing
boards between branches, so a value-level transition captures it. -/
structure GameM (S M : Type) where
  possible_moves : S → List M
  make_move : S → M → S
  nplayer : S → Int

/-- One iteration of the outer loop of down_the_rabbit_hole: the inner
for-loop over branch_possible_moves.  The accumulator carries
(best_branch_value, best_branch_game).  Note the source computes the move
list once from the state entering the iteration, but rebinds
best_branch_game inside the loop, so each later enumerated move is
applied to the rebound (already advanced) state. -/
def rabbitPly {S M : Type} (g : GameM S M) (scoring : S → Int) (s : S) :
    Option Int × S :=
  (g.possible_moves s).foldl
    (fun acc m =>
      let test := g.make_move acc.2 m
      let v := scoring test
      match acc.1 with
      | Option.none => (some v, test)
      | some bv => if bv < v then (some v, test) else acc)
    (Option.none, s)

/-- The outer for-loop of down_the_rabbit_hole, run for the number of
entries of range(2, final_depth).  best_branch_value is reset to None at
the start of every iteration, so only the last iteration's value
survives; the state chains through. -/
def rabbitIter {S M : Type} (g : GameM S M) (scoring : S → Int) :
    Nat → S → Option Int × S
  | 0, s => (Option.none, s)
  | 1, s => rabbitPly g scoring s
  | n + 2, s => rabbitIter g scoring (n + 1) (rabbitPly g scoring s).2

/-- down_the_rabbit_hole from StubbornGreedy.py.  When final_depth <= 2
the loop body never runs and the return statement reads the never
assigned local best_branch_value, raising UnboundLocalError.  Otherwise
it returns the pair (best_branch_value, best_branch_game.nplayer). -/
def down_the_rabbit_hole {S M : Type} (g : GameM S M) (scoring : S → Int)
    (root : S) (final_depth : Nat) : Except PyErr (Option Int × Int) :=
  if final_depth ≤ 2 then Except.error PyErr.unboundLocalError
  else
    let r := rabbitIter g scoring (final_depth - 2) root
    Except.ok (r.1, g.nplayer r.2)

/-- The value bound to root_value in stubborn_greedy for a candidate
whose post-move state is root: direct scoring when final_depth <= 1,
otherwise the rollout result, taken as-is when final_depth is even and
multiplied by -1 when final_depth is odd.  The rollout result is a
Python tuple, and -1 times a tuple is the empty tuple. -/
def root_value {S M : Type} (g : GameM S M) (scoring : S → Int)
    (final_depth : Nat) (root : S) : Except PyErr PyVal :=
  if final_depth ≤ 1 then Except.ok (PyVal.int (scoring root))
  else
    (down_the_rabbit_hole g scoring root final_depth).map
      (fun v =>
        if final_depth % 2 == 0 then PyVal.tuple [optPy v.1, PyVal.int v.2]
        else PyVal.tuple [])

/-- The comparison step of the candidate loop: if best_value is None the
candidate is kept outright; otherwise the Python comparison
root_value > best_value decides (raising TypeError on incomparable
values). -/
def sgKeep {M : Type} (m : M) (rv : PyVal) (st : Option M × Option PyVal) :
    Except PyErr (Option M × Option PyVal) :=
  match st.2 with
  | Option.none => Except.ok (some m, some rv)
  | some bv =>
    match pyGt rv bv with
    | Option.none => Except.error PyErr.typeError
    | some true => Except.ok (some m, some rv)
    | some false => Except.ok st

/-- One iteration of the candidate loop of stubborn_greedy: compute the
candidate's root_value on a private copy of the game, then keep the
running best through sgKeep. -/
def sgStep {S M : Type} (g : GameM S M) (scoring : S → Int)
    (final_depth : Nat) (s : S) (acc : Option M × Option PyVal) (m : M) :
    Except PyErr (Option M × Option PyVal) := do
  let rv ← root_value g scoring final_depth (g.make_move s m)
  sgKeep m rv acc

/-- stubborn_greedy from StubbornGreedy.py: iterate over the root's
possible_moves, each candidate applied to a private deep copy of the
game, and return the best_move (None when the root has no moves). -/
def stubborn_greedy {S M : Type} (g : GameM S M) (scoring : S → Int)
    (s : S) (final_depth : Nat) : Except PyErr (Option M) := do
  let r ← (g.possible_moves s).foldlM (sgStep g scoring final_depth s)
    (Option.none, Option.none)
  pure r.1

/-- Number of scoring invocations of one iteration of the rollout loop:
the source calls scoring exactly once per enumerated branch move. -/
def plyCalls {S M : Type} (g : GameM S M) (s : S) : Nat :=
  (g.possible_moves s).length

/-- Number of scoring invocations of the whole rollout (the given number
of iterations of the outer loop, states chained through rabbitPly). -/
def rolloutCalls {S M : Type} (g : GameM S M) (scoring : S → Int) :
    Nat → S → Nat
  | 0, _ => 0
  | n + 1, s => plyCalls g s + rolloutCalls g scoring n (rabbitPly g scoring s).2

/-- Total number of scoring invocations of one stubborn_greedy call:
one per candidate when final_depth <= 1, otherwise the rollout's calls
for each candidate (the comparison logic itself never calls scoring). -/
def sg_scoring_calls {S M : Type} (g : GameM S M) (scoring : S → Int)
    (s : S) (final_depth : Nat) : Nat :=
  ((g.possible_moves s).map
    (fun m =>
      if final_depth ≤ 1 then 1
      else rolloutCalls g scoring (final_depth - 2) (g.make_move s m))).sum

/-- Synthetic game for concrete runs: a state is the list of moves
played, newest first; every state offers the moves 0 and 1. -/
def chainGame : GameM (List Int) Int :=
  ⟨fun _ => [0, 1], fun s m => m :: s, fun _ => 1⟩

/-- Scoring for chainGame: the number of moves played. -/
def lenScore (s : List Int) : Int := s.length

/-- Synthetic game for concrete runs: the root [] offers the moves 0 and
1, every other state offers the single move 9. -/
def forkGame : GameM (List Int) Int :=
  ⟨fun s => if s = [] then [0, 1] else [9], fun s m => m :: s, fun _ => 1⟩

/-- Scoring for forkGame, separating the two rollout endpoints. -/
def forkScore (s : List Int) : Int :=
  if s = [9, 0] then 5 else if s = [9, 1] then -7 else 0

/- Section: object-heap model of stubborn_greedy, for the frame claim.
The Python objects live on a heap (a list of game states); a reference
is an index; copy.deepcopy allocates a fresh object; make_move mutates
the referenced object in place.  The control flow below mirrors
stubborn_greedy and down_the_rabbit_hole statement by statement. -/

/-- copy.deepcopy: append a copy of the referenced object, return the
fresh reference. -/
def hDeepcopy {S : Type} [Inhabited S] (h : List S) (r : Nat) :
    List S × Nat :=
  (h ++ [h.getD r default], h.length)

/-- game.make_move(m): mutate the referenced object in place. -/
def hMakeMove {S M : Type} [Inhabited S] (g : GameM S M) (h : List S)
    (r : Nat) (m : M) : List S :=
  h.set r (g.make_move (h.getD r default) m)

/-- Heap version of one iteration of the rollout loop: test_game is a
deep copy of best_branch_game, mutated by make_move; on improvement
best_branch_game is rebound to a deep copy of test_game. -/
def hRabbitPly {S M : Type} [Inhabited S] (g : GameM S M)
    (scoring : S → Int) (h : List S) (bestRef : Nat) :
    List S × (Option Int × Nat) :=
  (g.possible_moves (h.getD bestRef default)).foldl
    (fun acc m =>
      let hc := hDeepcopy acc.1 acc.2.2
      let h2 := hMakeMove g hc.1 hc.2 m
      let v := scoring (h2.getD hc.2 default)
      match acc.2.1 with
      | Option.none =>
        let hb := hDeepcopy h2 hc.2
        (hb.1, (some v, hb.2))
      | some bv =>
        if bv < v then
          let hb := hDeepcopy h2 hc.2
          (hb.1, (some v, hb.2))
        else (h2, acc.2))
    (h, (Option.none, bestRef))

/-- Heap version of the outer rollout loop. -/
def hRabbitIter {S M : Type} [Inhabited S] (g : GameM S M)
    (scoring : S → Int) : Nat → List S → Nat → List S × (Option Int × Nat)
  | 0, h, r => (h, (Option.none, r))
  | 1, h, r => hRabbitPly g scoring h r
  | n + 2, h, r =>
    let p := hRabbitPly g scoring h r
    hRabbitIter g scoring (n + 1) p.1 p.2.2

/-- Heap version of down_the_rabbit_hole.  best_branch_game starts as an
alias of root_game (no copy at this line in the source). -/
def hDtrh {S M : Type} [Inhabited S] (g : GameM S M) (scoring : S → Int)
    (h : List S) (rootRef : Nat) (final_depth : Nat) :
    List S × Except PyErr (Option Int × Int) :=
  if final_depth ≤ 2 then (h, Except.error PyErr.unboundLocalError)
  else
    let r := hRabbitIter g scoring (final_depth - 2) h rootRef
    (r.1, Except.ok (r.2.1, g.nplayer (r.1.getD r.2.2 default)))

/-- Heap version of one iteration of the candidate loop of
stubborn_greedy: root_game is a deep copy of the caller's game object,
and only that copy is mutated. -/
def hSgStep {S M : Type} [Inhabited S] (g : GameM S M) (scoring : S → Int)
    (final_depth : Nat) (gameRef : Nat)
    (acc : List S × Except PyErr (Option M × Option PyVal)) (m : M) :
    List S × Except PyErr (Option M × Option PyVal) :=
  match acc.2 with
  | Except.error e => (acc.1, Except.error e)
  | Except.ok st =>
    let hc := hDeepcopy acc.1 gameRef
    let h2 := hMakeMove g hc.1 hc.2 m
    if final_depth ≤ 1 then
      let rv := PyVal.int (scoring (h2.getD hc.2 default))
      (h2, sgKeep m rv st)
    else
      let d := hDtrh g scoring h2 hc.2 final_depth
      match d.2 with
      | Except.error e => (d.1, Except.error e)
      | Except.ok pr =>
        let rv :=
          if final_depth % 2 == 0 then PyVal.tuple [optPy pr.1, PyVal.int pr.2]
          else PyVal.tuple []
        (d.1, sgKeep m rv st)

/-- Heap version of stubborn_greedy: fold the candidate loop over the
moves of the caller's (unmutated) game object. -/
def hStubbornGreedy {S M : Type} [Inhabited S] (g : GameM S M)
    (scoring : S → Int) (final_depth : Nat) (h : List S) (gameRef : Nat) :
    List S × Except PyErr (Option M) :=
  let r := (g.possible_moves (h.getD gameRef default)).foldl
    (hSgStep g scoring final_depth gameRef)
    (h, Except.ok (Option.none, Option.none))
  (r.1, r.2.map (fun st => st.1))

/-- The original heap objects are untouched by a heap transformation:
every index below the old length reads back unchanged, and the heap
never shrinks (fresh objects are only appended). -/
def heapExt {S : Type} (h0 h : List S) : Prop :=
  h0.length ≤ h.length ∧ ∀ i, i < h0.length → h[i]? = h0[i]?

/- Section: LastCoinStanding.py -/

/-- possible_moves of LastCoinStanding: the decimal strings for 1 up to
max_coins = 4 (the field is fixed to 4 in the constructor). -/
def lcs_possible_moves : List String := ["1", "2", "3", "4"]

/-- int(move) for the move strings of LastCoinStanding: the moves are
exactly the four decimal literals of lcs_possible_moves, so the Python
conversion is spelled out on them. -/
def lcs_move_val (m : String) : Int :=
  if m = "1" then 1
  else if m = "2" then 2
  else if m = "3" then 3
  else if m = "4" then 4
  else 0

/-- make_move: num_coins -= int(move).  The state is num_coins, an int
(it can go below zero, possible_moves never shrinks). -/
def lcs_make_move (n : Int) (m : String) : Int := n - lcs_move_val m

/-- win: the pile the mover faces is exhausted. -/
def lcs_win (n : Int) : Bool := decide (n ≤ 0)

/-- is_over delegates to win. -/
def lcs_is_over (n : Int) : Bool := lcs_win n

/-- scoring: 100 when win() holds, else 0. -/
def lcs_scoring (n : Int) : Int := if lcs_win n then 100 else 0

/-- Modelled from the spec: the scenario of the spec describes the game
rule as: win = opponent faces 0 coins.  Under that rule the player about
to move at an exhausted pile has lost.  (The claim needs a mover-has-lost
predicate for LastCoinStanding; the source defines only win().) -/
def lcs_mover_lost_spec (n : Int) : Bool := decide (n ≤ 0)

/-- Modelled from the spec: Exact Search (Negamax family), spec section
4.3, cache-free and pruning-free; the Negamax implementation itself is
easyAI library code not under src, only its consumer games are.  At
depth 0 or a terminal state it returns the static score, otherwise the
maximum over the legal moves, in enumeration order, of the negated
recursive value one ply down.  Instantiated at the LastCoinStanding game
of the source. -/
def negamax : Nat → Int → Int
  | 0, n => lcs_scoring n
  | d + 1, n =>
    if lcs_is_over n then lcs_scoring n
    else
      (lcs_possible_moves.map
        (fun m => -negamax d (lcs_make_move n m))).foldr max (-1000000)

/- Section: ConnectFour.py -/

/-- The ConnectFour board: 6 rows by 7 columns of cell values; 0 is an
empty cell, otherwise the number of the player who filled it. -/
abbrev CFBoard := Fin 6 → Fin 7 → Nat

/-- board[:, c].min(): the minimum of column c. -/
def cf_col_min (b : CFBoard) (c : Fin 7) : Nat :=
  min (b 0 c) (min (b 1 c) (min (b 2 c) (min (b 3 c) (min (b 4 c) (b 5 c)))))

/-- possible_moves: the columns whose minimum entry is 0, i.e. the
columns with an empty cell, in increasing order. -/
def cf_possible_moves (b : CFBoard) : List (Fin 7) :=
  (List.finRange 7).filter (fun c => cf_col_min b c == 0)

/-- np.argmin(board[:, c] != 0): index of the first False of the mask,
i.e. the lowest row whose cell is 0; when the column has no empty cell
the mask is all True and argmin returns 0. -/
def cf_line (b : CFBoard) (c : Fin 7) : Fin 6 :=
  if b 0 c = 0 then 0
  else if b 1 c = 0 then 1
  else if b 2 c = 0 then 2
  else if b 3 c = 0 then 3
  else if b 4 c = 0 then 4
  else if b 5 c = 0 then 5
  else 0

/-- make_move: board[line, column] = nplayer. -/
def cf_make_move (b : CFBoard) (c : Fin 7) (p : Nat) : CFBoard :=
  fun r' c' => if r' = cf_line b c ∧ c' = c then p else b r' c'

/-- easyAI's nopponent property (2 when nplayer is 1, else 1).  The
TwoPlayersGame base class is not under src; modelled from the spec's
two-player alternation of the data model. -/
def nopponent (np : Nat) : Nat := if np = 1 then 2 else 1

/-- pos_dir from the constructor: the 25 scan lines (start position and
direction): the 6 rows, the 7 columns, and the 12 diagonals of length at
least 4, as Int pairs. -/
def cf_pos_dir : List ((Int × Int) × (Int × Int)) :=
  [((0, 0), (0, 1)), ((1, 0), (0, 1)), ((2, 0), (0, 1)),
   ((3, 0), (0, 1)), ((4, 0), (0, 1)), ((5, 0), (0, 1)),
   ((0, 0), (1, 0)), ((0, 1), (1, 0)), ((0, 2), (1, 0)),
   ((0, 3), (1, 0)), ((0, 4), (1, 0)), ((0, 5), (1, 0)), ((0, 6), (1, 0)),
   ((1, 0), (1, 1)), ((2, 0), (1, 1)),
   ((0, 0), (1, 1)), ((0, 1), (1, 1)), ((0, 2), (1, 1)), ((0, 3), (1, 1)),
   ((1, 6), (1, -1)), ((2, 6), (1, -1)),
   ((0, 3), (1, -1)), ((0, 4), (1, -1)), ((0, 5), (1, -1)), ((0, 6), (1, -1))]

/-- The while-loop bound of loss_condition: (0 <= pos[0] <= 5) and
(0 <= pos[1] <= 6). -/
def cf_in_bounds (p : Int × Int) : Bool :=
  decide (0 ≤ p.1 ∧ p.1 ≤ 5 ∧ 0 ≤ p.2 ∧ p.2 ≤ 6)

/-- board[pos[0], pos[1]] for an in-bounds position (the loop guard
guarantees the bounds; out of bounds the value is irrelevant). -/
def cf_cell (b : CFBoard) (p : Int × Int) : Nat :=
  if h : 0 ≤ p.1 ∧ p.1 ≤ 5 ∧ 0 ≤ p.2 ∧ p.2 ≤ 6 then
    b ⟨p.1.toNat, by omega⟩ ⟨p.2.toNat, by omega⟩
  else 0

/-- The while-loop of loss_condition along one scan line, fuel-bounded:
while in bounds, a cell holding target extends the streak (four in a row
returns True), any other cell resets it, and the position advances by
the direction.  Every scan line leaves the board after at most 7 steps,
so fuel 13 is ample. -/
def cf_scan (b : CFBoard) (target : Nat) :
    Nat → Int × Int → Int × Int → Nat → Bool
  | 0, _, _, _ => false
  | fuel + 1, pos, dir, streak =>
    if cf_in_bounds pos then
      if cf_cell b pos = target then
        if streak + 1 = 4 then true
        else cf_scan b target fuel (pos + dir) dir (streak + 1)
      else cf_scan b target fuel (pos + dir) dir 0
    else false

/-- loss_condition: some scan line contains four consecutive cells of
the mover's opponent. -/
def cf_loss_condition (b : CFBoard) (np : Nat) : Bool :=
  cf_pos_dir.any (fun pd => cf_scan b (nopponent np) 13 pd.1 pd.2 0)

/-- board.min(): the minimum cell of the whole board. -/
def cf_board_min (b : CFBoard) : Nat :=
  min (cf_col_min b 0) (min (cf_col_min b 1) (min (cf_col_min b 2)
    (min (cf_col_min b 3) (min (cf_col_min b 4)
      (min (cf_col_min b 5) (cf_col_min b 6))))))

/-- is_over: the board is full, or the mover has lost. -/
def cf_is_over (b : CFBoard) (np : Nat) : Bool :=
  decide (0 < cf_board_min b) || cf_loss_condition b np

/-- scoring: -100 when loss_condition holds, else 0. -/
def cf_scoring (b : CFBoard) (np : Nat) : Int :=
  if cf_loss_condition b np then -100 else 0

/-- Position k steps along direction d from p (k may be negative). -/
def dstep (p d : Int × Int) (k : Int) : Int × Int :=
  (p.1 + k * d.1, p.2 + k * d.2)

/-- The four cells p, p+d, p+2d, p+3d. -/
def cf_ray4 (p d : Int × Int) : List (Int × Int) :=
  [p, p + d, p + d + d, p + d + d + d]

/-- Four consecutive in-bounds cells holding value v, from p along d. -/
def cf_four_at (b : CFBoard) (v : Nat) (p d : Int × Int) : Bool :=
  (cf_ray4 p d).all (fun q => cf_in_bounds q && (cf_cell b q == v))

/-- The four line directions of a connect-four board. -/
def cf_dirs : List (Int × Int) := [(0, 1), (1, 0), (1, 1), (1, -1)]

/-- Specification-level predicate: the value v occurs four in a row
somewhere on the board (any start cell, any of the four directions). -/
def cf_has_four (b : CFBoard) (v : Nat) : Bool :=
  (List.range 6).any (fun r =>
    (List.range 7).any (fun c =>
      cf_dirs.any (fun d => cf_four_at b v ((r : Int), (c : Int)) d)))

/-- Concrete board: column 0 completely filled by player 2, the rest
empty. -/
def cf_b_colfull : CFBoard := fun _ c => if c = 0 then 2 else 0

/-- Concrete board: completely full of player 1 cells. -/
def cf_b_full : CFBoard := fun _ _ => 1

/- Theorems. -/

/-- Value of depth-bounded negamax on LastCoinStanding, for any depth at
least the number of coins: the mover to face a pile with n % 5 = 1 coins
is forced to hand the opponent an exhausted pile (value -100); every
other mover wins (value 100), since the code's terminal rule awards +100
to the player facing an exhausted pile. -/
theorem negamax_char (d : Nat) : ∀ n : Int, n ≤ (d : Int) →
    negamax d n = if 1 ≤ n ∧ n % 5 = 1 then -100 else 100 := by
  induction d with
  | zero =>
    intro n hn
    simp only [negamax, lcs_scoring, lcs_win]
    split_ifs <;> simp_all
    omega
  | succ d ih =>
    intro n hn
    by_cases hover : n ≤ 0
    · have ho : lcs_is_over n = true := by
        simp [lcs_is_over, lcs_win]; omega
      simp only [negamax, ho, if_true, lcs_scoring, lcs_win]
      split_ifs <;> simp_all
      omega
    · have ho : lcs_is_over n = false := by
        simp [lcs_is_over, lcs_win]; omega
      have e1 : lcs_make_move n "1" = n - 1 := rfl
      have e2 : lcs_make_move n "2" = n - 2 := rfl
      have e3 : lcs_make_move n "3" = n - 3 := rfl
      have e4 : lcs_make_move n "4" = n - 4 := rfl
      have v1 := ih (n - 1) (by omega)
      have v2 := ih (n - 2) (by omega)
      have v3 := ih (n - 3) (by omega)
      have v4 := ih (n - 4) (by omega)
      simp only [negamax, ho, Bool.false_eq_true, if_false,
        lcs_possible_moves, List.map_cons, List.map_nil, List.foldr_cons,
        List.foldr_nil, e1, e2, e3, e4, v1, v2, v3, v4]
      have hmod : n % 5 = 0 ∨ n % 5 = 1 ∨ n % 5 = 2 ∨ n % 5 = 3 ∨
          n % 5 = 4 := by omega
      rcases hmod with h | h | h | h | h
      · rw [if_neg (by omega : ¬(1 ≤ n - 1 ∧ (n - 1) % 5 = 1)),
          if_neg (by omega : ¬(1 ≤ n - 2 ∧ (n - 2) % 5 = 1)),
          if_neg (by omega : ¬(1 ≤ n - 3 ∧ (n - 3) % 5 = 1)),
          if_pos (by omega : 1 ≤ n - 4 ∧ (n - 4) % 5 = 1),
          if_neg (by omega : ¬(1 ≤ n ∧ n % 5 = 1))]
        decide
      · rw [if_neg (by omega : ¬(1 ≤ n - 1 ∧ (n - 1) % 5 = 1)),
          if_neg (by omega : ¬(1 ≤ n - 2 ∧ (n - 2) % 5 = 1)),
          if_neg (by omega : ¬(1 ≤ n - 3 ∧ (n - 3) % 5 = 1)),
          if_neg (by omega : ¬(1 ≤ n - 4 ∧ (n - 4) % 5 = 1)),
          if_pos (by omega : 1 ≤ n ∧ n % 5 = 1)]
        decide
      · rw [if_pos (by omega : 1 ≤ n - 1 ∧ (n - 1) % 5 = 1),
          if_neg (by omega : ¬(1 ≤ n - 2 ∧ (n - 2) % 5 = 1)),
          if_neg (by omega : ¬(1 ≤ n - 3 ∧ (n - 3) % 5 = 1)),
          if_neg (by omega : ¬(1 ≤ n - 4 ∧ (n - 4) % 5 = 1)),
          if_neg (by omega : ¬(1 ≤ n ∧ n % 5 = 1))]
        decide
      · rw [if_neg (by omega : ¬(1 ≤ n - 1 ∧ (n - 1) % 5 = 1)),
          if_pos (by omega : 1 ≤ n - 2 ∧ (n - 2) % 5 = 1),
          if_neg (by omega : ¬(1 ≤ n - 3 ∧ (n - 3) % 5 = 1)),
          if_neg (by omega : ¬(1 ≤ n - 4 ∧ (n - 4) % 5 = 1)),
          if_neg (by omega : ¬(1 ≤ n ∧ n % 5 = 1))]
        decide
      · rw [if_neg (by omega : ¬(1 ≤ n - 1 ∧ (n - 1) % 5 = 1)),
          if_neg (by omega : ¬(1 ≤ n - 2 ∧ (n - 2) % 5 = 1)),
          if_pos (by omega : 1 ≤ n - 3 ∧ (n - 3) % 5 = 1),
          if_neg (by omega : ¬(1 ≤ n - 4 ∧ (n - 4) % 5 = 1)),
          if_neg (by omega : ¬(1 ≤ n ∧ n % 5 = 1))]
        decide

/-- Claim C2, counterexample: at a pile of exactly 25 coins, exact search at a
sufficient depth (25 plies bound every line of play from 25 coins)
reports the forced WIN value 100 for the player to move, not a forced
loss, contradicting the claim that 25 coins is a forced loss. -/
theorem c2_twentyfive_is_not_a_forced_loss :
    negamax 25 25 = 100 ∧ (100 : Int) ≠ -100 := by
  constructor
  · have h := negamax_char 25 25 (by norm_num)
    norm_num at h
    exact h
  · decide

/-- Claim C2, amended: at every depth of at least 30 plies, exact search on
LastCoinStanding reports the 30-coin position as a forced win for the
player to move, the 25-coin position also as a forced win, and e.g. the
26-coin position as a forced loss; the forced losses are exactly the
piles with n % 5 = 1, because the code awards the terminal +100 to the
player FACING the exhausted pile. -/
theorem c2_forced_outcomes (d : Nat) (hd : 30 ≤ d) :
    negamax d 30 = 100 ∧ negamax d 25 = 100 ∧ negamax d 26 = -100 := by
  have h30 := negamax_char d 30 (by omega)
  have h25 := negamax_char d 25 (by omega)
  have h26 := negamax_char d 26 (by omega)
  norm_num at h30 h25 h26
  exact ⟨h30, h25, h26⟩

/-- Claim C2, witness for the amended theorem at depth 30. -/
theorem c2_forced_outcomes_witness :
    negamax 30 30 = 100 ∧ negamax 30 25 = 100 ∧ negamax 30 26 = -100 :=
  c2_forced_outcomes 30 (by decide)

/-- Claim C1: the sign correction is not the claimed numeric parity rule.  At
final_depth 3 (odd) on the chain game, the rollout's terminal value is
the int 3, but the candidate's root_value is -1 times the returned
Python pair, i.e. the EMPTY TUPLE, not the negated number -3; and at
final_depth 2 (even, still > 1) no value is derived at all because
down_the_rabbit_hole raises UnboundLocalError. -/
theorem c1_odd_depth_value_is_empty_tuple :
    down_the_rabbit_hole chainGame lenScore [0] 3 = Except.ok (some 3, 1) ∧
    root_value chainGame lenScore 3 [0] = Except.ok (PyVal.tuple []) ∧
    PyVal.tuple [] ≠ PyVal.int (-3) ∧
    root_value chainGame lenScore 2 [0] =
      Except.error PyErr.unboundLocalError := by
  refine ⟨rfl, rfl, ?_, rfl⟩
  intro h
  exact PyVal.noConfusion h

/-- Claim C5: the rollout does not commit one single best-scoring move per
step.  From state [0] (one candidate move played) at final_depth 3 the
claim demands exactly one committed step, choosing among the one-move
continuations of [0] (each of score 2); the code instead rebinds the
base state inside the inner loop, applies move 1 on top of move 0,
commits TWO moves in the single step (final state [1, 0, 0]) and
returns score 3 for a state that is no one-move continuation at all. -/
theorem c5_rollout_chains_moves :
    down_the_rabbit_hole chainGame lenScore [0] 3 = Except.ok (some 3, 1) ∧
    (chainGame.possible_moves [0]).map
      (fun m => lenScore (chainGame.make_move [0] m)) = [2, 2] ∧
    (rabbitIter chainGame lenScore 1 [0]).2 = [1, 0, 0] := by
  exact ⟨rfl, rfl, rfl⟩

/-- Claim C4: selection does not maximize the sign-corrected value.  On the
fork game at final_depth 3 the two rollout values are 5 (candidate 0)
and -7 (candidate 1); the claimed odd-depth sign correction makes
candidate 1 the strict maximum (7 against -5), but the code computes the
empty tuple for BOTH candidates and returns the first move 0; and at
final_depth 2 it raises UnboundLocalError instead of returning any
move. -/
theorem c4_selection_ignores_values :
    stubborn_greedy forkGame forkScore [] 3 = Except.ok (some 0) ∧
    down_the_rabbit_hole forkGame forkScore [0] 3 =
      Except.ok (some 5, 1) ∧
    down_the_rabbit_hole forkGame forkScore [1] 3 =
      Except.ok (some (-7), 1) ∧
    root_value forkGame forkScore 3 [0] = Except.ok (PyVal.tuple []) ∧
    root_value forkGame forkScore 3 [1] = Except.ok (PyVal.tuple []) ∧
    ((-(-7 : Int)) > -(5 : Int)) ∧
    stubborn_greedy forkGame forkScore [] 2 =
      Except.error PyErr.unboundLocalError := by
  refine ⟨rfl, rfl, rfl, rfl, rfl, by norm_num, rfl⟩

/-- At odd final_depth above 2, every candidate's root_value is the
empty tuple (-1 times the Python pair returned by the rollout),
whatever the game and the scoring function. -/
theorem root_value_odd {S M : Type} (g : GameM S M) (sc : S → Int)
    (fd : Nat) (hfd : 2 < fd) (hodd : fd % 2 = 1) (s : S) :
    root_value g sc fd s = Except.ok (PyVal.tuple []) := by
  unfold root_value down_the_rabbit_hole
  rw [if_neg (by omega : ¬fd ≤ 1), if_neg (by omega : ¬fd ≤ 2)]
  simp [Except.map, hodd]

/-- Once the first candidate is installed with value the empty tuple,
every further candidate compares () > () which is False, so the fold
never changes the accumulator at odd depth. -/
theorem sg_fold_odd {S M : Type} (g : GameM S M) (sc : S → Int)
    (fd : Nat) (hfd : 2 < fd) (hodd : fd % 2 = 1) (s : S) (m0 : M) :
    ∀ ms : List M,
      List.foldlM (sgStep g sc fd s) (some m0, some (PyVal.tuple [])) ms =
        Except.ok (some m0, some (PyVal.tuple [])) := by
  intro ms
  induction ms with
  | nil => rfl
  | cons m ms ih =>
    have hs : sgStep g sc fd s (some m0, some (PyVal.tuple [])) m =
        Except.ok (some m0, some (PyVal.tuple [])) := by
      simp only [sgStep, root_value_odd g sc fd hfd hodd]
      rfl
    rw [List.foldlM_cons, hs]
    simpa using ih

/-- Claim C9: at every odd final_depth above 1, for every game whose root has
at least one legal move and every scoring function, stubborn_greedy
returns the first enumerated move: the rollout returns the pair
(value, nplayer), -1 times that pair is the empty Python tuple, so all
candidates tie and the first is kept. -/
theorem c9_odd_depth_returns_first_move {S M : Type} (g : GameM S M)
    (sc : S → Int) (s : S) (fd : Nat) (hodd : fd % 2 = 1) (hfd : 1 < fd)
    (m0 : M) (ms : List M) (hm : g.possible_moves s = m0 :: ms) :
    stubborn_greedy g sc s fd = Except.ok (some m0) := by
  have hfd2 : 2 < fd := by omega
  have h1 : sgStep g sc fd s (Option.none, Option.none) m0 =
      Except.ok (some m0, some (PyVal.tuple [])) := by
    simp only [sgStep, root_value_odd g sc fd hfd2 hodd]
    rfl
  have h2 : List.foldlM (sgStep g sc fd s) (Option.none, Option.none)
      (m0 :: ms) = Except.ok (some m0, some (PyVal.tuple [])) := by
    rw [List.foldlM_cons, h1]
    simpa using sg_fold_odd g sc fd hfd2 hodd s m0 ms
  unfold stubborn_greedy
  rw [hm]
  rw [h2]
  rfl

/-- Claim C9, witness: the chain game at depth 3 returns the first of its two
root moves. -/
theorem c9_odd_depth_returns_first_move_witness :
    stubborn_greedy chainGame lenScore [] 3 = Except.ok (some 0) :=
  c9_odd_depth_returns_first_move chainGame lenScore [] 3 (by decide)
    (by decide) 0 [1] rfl

/-- The rollout makes at most N scoring calls per committed step. -/
theorem rolloutCalls_le {S M : Type} (g : GameM S M) (sc : S → Int)
    (N : Nat) (hN : ∀ t : S, (g.possible_moves t).length ≤ N) :
    ∀ (n : Nat) (s : S), rolloutCalls g sc n s ≤ N * n := by
  intro n
  induction n with
  | zero => intro s; simp [rolloutCalls]
  | succ n ih =>
    intro s
    have h1 := hN s
    have h2 := ih (rabbitPly g sc s).2
    calc rolloutCalls g sc (n + 1) s
        = plyCalls g s + rolloutCalls g sc n (rabbitPly g sc s).2 := rfl
      _ ≤ N + N * n := Nat.add_le_add h1 h2
      _ = N * (n + 1) := by ring

/-- Claim C6: bound on the number of scoring invocations of one
stubborn_greedy call on a game with at most N legal moves per state:
at most N at depth <= 1 (one direct evaluation per candidate), at most
N * (N * (final_depth - 2)) otherwise, both at most
N + N * N * final_depth; linear in the depth, never exponential. -/
theorem c6_scoring_call_bound {S M : Type} (g : GameM S M)
    (sc : S → Int) (s : S) (fd N : Nat)
    (hN : ∀ t : S, (g.possible_moves t).length ≤ N) :
    sg_scoring_calls g sc s fd ≤ N + N * N * fd := by
  unfold sg_scoring_calls
  by_cases h : fd ≤ 1
  · simp only [if_pos h]
    have h1 : ∀ x ∈ (g.possible_moves s).map (fun _ => (1 : Nat)),
        x ≤ 1 := by simp
    have h2 := List.sum_le_card_nsmul _ 1 h1
    simp only [List.length_map, smul_eq_mul, mul_one] at h2
    exact le_trans (le_trans h2 (hN s)) (Nat.le_add_right _ _)
  · simp only [if_neg h]
    have h1 : ∀ x ∈ (g.possible_moves s).map
        (fun m => rolloutCalls g sc (fd - 2) (g.make_move s m)),
        x ≤ N * (fd - 2) := by
      intro x hx
      simp only [List.mem_map] at hx
      obtain ⟨m, _, rfl⟩ := hx
      exact rolloutCalls_le g sc N hN _ _
    have h2 := List.sum_le_card_nsmul _ _ h1
    simp only [List.length_map, smul_eq_mul] at h2
    calc ((g.possible_moves s).map
        (fun m => rolloutCalls g sc (fd - 2) (g.make_move s m))).sum
        ≤ (g.possible_moves s).length * (N * (fd - 2)) := h2
      _ ≤ N * (N * (fd - 2)) := Nat.mul_le_mul_right _ (hN s)
      _ ≤ N * (N * fd) :=
          Nat.mul_le_mul_left _ (Nat.mul_le_mul_left _ (Nat.sub_le fd 2))
      _ = N * N * fd := by ring
      _ ≤ N + N * N * fd := Nat.le_add_left _ _

/-- Claim C6, witness: the chain game has 2 moves everywhere; at depth 3 the
call bound 2 + 2*2*3 holds. -/
theorem c6_scoring_call_bound_witness :
    sg_scoring_calls chainGame lenScore [] 3 ≤ 2 + 2 * 2 * 3 :=
  c6_scoring_call_bound chainGame lenScore [] 3 2 (fun _ => Nat.le.refl)

theorem heapExt_refl {S : Type} (h : List S) : heapExt h h :=
  ⟨Nat.le.refl, fun _ _ => rfl⟩

theorem heapExt_append {S : Type} {h0 h : List S} (v : S)
    (he : heapExt h0 h) : heapExt h0 (h ++ [v]) := by
  obtain ⟨hl, hg⟩ := he
  refine ⟨by simp; omega, fun i hi => ?_⟩
  rw [List.getElem?_append_left (by omega), hg i hi]

theorem heapExt_set {S : Type} {h0 h : List S} {r : Nat} (v : S)
    (he : heapExt h0 h) (hr : h0.length ≤ r) :
    heapExt h0 (h.set r v) := by
  obtain ⟨hl, hg⟩ := he
  refine ⟨by simp [List.length_set]; omega, fun i hi => ?_⟩
  rw [List.getElem?_set_ne (by omega), hg i hi]

/-- A foldl whose step preserves a property of the accumulator keeps
that property. -/
theorem foldl_preserves {α β : Type _} (P : β → Prop) (f : β → α → β)
    (hstep : ∀ acc a, P acc → P (f acc a)) :
    ∀ (l : List α) (init : β), P init → P (l.foldl f init) := by
  intro l
  induction l with
  | nil => intro init h; exact h
  | cons a l ih => intro init h; exact ih _ (hstep _ _ h)

theorem heapExt_deepcopy {S : Type} [Inhabited S] {h0 h : List S}
    (r : Nat) (he : heapExt h0 h) :
    heapExt h0 (hDeepcopy h r).1 ∧ h0.length ≤ (hDeepcopy h r).2 :=
  ⟨heapExt_append _ he, he.1⟩

theorem heapExt_make_move {S M : Type} [Inhabited S] (g : GameM S M)
    {h0 h : List S} {r : Nat} (m : M) (he : heapExt h0 h)
    (hr : h0.length ≤ r) : heapExt h0 (hMakeMove g h r m) :=
  heapExt_set _ he hr

theorem heapExt_rabbitPly {S M : Type} [Inhabited S] (g : GameM S M)
    (sc : S → Int) {h0 h : List S} (r : Nat) (he : heapExt h0 h) :
    heapExt h0 (hRabbitPly g sc h r).1 := by
  unfold hRabbitPly
  have := foldl_preserves
    (fun acc : List S × (Option Int × Nat) => heapExt h0 acc.1)
    (fun acc m =>
      let hc := hDeepcopy acc.1 acc.2.2
      let h2 := hMakeMove g hc.1 hc.2 m
      let v := sc (h2.getD hc.2 default)
      match acc.2.1 with
      | Option.none =>
        let hb := hDeepcopy h2 hc.2
        (hb.1, (some v, hb.2))
      | some bv =>
        if bv < v then
          let hb := hDeepcopy h2 hc.2
          (hb.1, (some v, hb.2))
        else (h2, acc.2))
    ?_ (g.possible_moves (h.getD r default)) (h, (Option.none, r)) he
  · exact this
  · intro acc m hacc
    have hc := heapExt_deepcopy acc.2.2 hacc
    have h2 := heapExt_make_move g m hc.1 hc.2
    rcases acc with ⟨hh, bv, br⟩
    rcases bv with _ | bv
    · exact heapExt_append _ h2
    · by_cases hlt : bv < sc (((hMakeMove g (hDeepcopy hh br).1
        (hDeepcopy hh br).2 m)).getD (hDeepcopy hh br).2 default)
      · simp only [hlt, if_true]
        exact heapExt_append _ h2
      · simp only [hlt, if_false]
        exact h2

theorem heapExt_rabbitIter {S M : Type} [Inhabited S] (g : GameM S M)
    (sc : S → Int) :
    ∀ (n : Nat) {h0 h : List S} (r : Nat), heapExt h0 h →
      heapExt h0 (hRabbitIter g sc n h r).1 := by
  intro n
  induction n with
  | zero => intro h0 h r he; exact he
  | succ n ih =>
    intro h0 h r he
    match n with
    | 0 => exact heapExt_rabbitPly g sc r he
    | n + 1 =>
      exact ih _ (heapExt_rabbitPly g sc r he)

theorem heapExt_dtrh {S M : Type} [Inhabited S] (g : GameM S M)
    (sc : S → Int) {h0 h : List S} (r fd : Nat) (he : heapExt h0 h) :
    heapExt h0 (hDtrh g sc h r fd).1 := by
  unfold hDtrh
  by_cases hfd : fd ≤ 2
  · simp only [hfd, if_true]; exact he
  · simp only [hfd, if_false]
    exact heapExt_rabbitIter g sc (fd - 2) r he

theorem heapExt_sgStep {S M : Type} [Inhabited S] (g : GameM S M)
    (sc : S → Int) (fd gameRef : Nat) {h0 : List S}
    (acc : List S × Except PyErr (Option M × Option PyVal)) (m : M)
    (hacc : heapExt h0 acc.1) :
    heapExt h0 (hSgStep g sc fd gameRef acc m).1 := by
  rcases acc with ⟨h, st⟩
  rcases st with e | st
  · exact hacc
  · unfold hSgStep
    simp only
    have hc := heapExt_deepcopy gameRef hacc
    have h2 := heapExt_make_move g m hc.1 hc.2
    by_cases hfd : fd ≤ 1
    · simp only [hfd, if_true]
      exact h2
    · simp only [hfd, if_false]
      have hd := heapExt_dtrh g sc (hDeepcopy h gameRef).2 fd h2
      rcases hdd : (hDtrh g sc (hMakeMove g (hDeepcopy h gameRef).1
          (hDeepcopy h gameRef).2 m) (hDeepcopy h gameRef).2 fd).2 with
        e | pr
      · simp only [hdd]
        exact hd
      · simp only [hdd]
        exact hd

/-- Claim C10: stubborn_greedy never mutates the game object it was handed.
In the heap model every make_move targets a reference freshly allocated
by copy.deepcopy inside the call, so the caller's object (and every
other pre-existing object) reads back unchanged. -/
theorem c10_game_object_unchanged {S M : Type} [Inhabited S]
    (g : GameM S M) (sc : S → Int) (fd : Nat) (h : List S) (r : Nat)
    (hr : r < h.length) :
    ((hStubbornGreedy g sc fd h r).1).getD r default = h.getD r default := by
  have hext : heapExt h (hStubbornGreedy g sc fd h r).1 := by
    unfold hStubbornGreedy
    simp only
    exact foldl_preserves
      (fun acc : List S × Except PyErr (Option M × Option PyVal) =>
        heapExt h acc.1)
      (hSgStep g sc fd r)
      (fun acc m hacc => heapExt_sgStep g sc fd r acc m hacc)
      (g.possible_moves (h.getD r default))
      (h, Except.ok (Option.none, Option.none)) (heapExt_refl h)
  rw [List.getD_eq_getElem?_getD, List.getD_eq_getElem?_getD,
    hext.2 r hr]

/-- Claim C10, witness: a one-object heap holding the chain-game root; the
root object is unchanged by the call at depth 3. -/
theorem c10_game_object_unchanged_witness :
    ((hStubbornGreedy chainGame lenScore 3 [[]] 0).1).getD 0 default =
      ([[]] : List (List Int)).getD 0 default :=
  c10_game_object_unchanged chainGame lenScore 3 [[]] 0 (by decide)

/-- Claim C8: a ConnectFour state with no legal move is terminal; every
column then has a positive minimum, so the whole board minimum is
positive and is_over reports the full board.  (Contrapositive: a
non-terminal state has a non-empty move list.) -/
theorem c8_no_moves_implies_over (b : CFBoard) (np : Nat)
    (h : cf_possible_moves b = []) : cf_is_over b np = true := by
  have hall : ∀ c : Fin 7, cf_col_min b c ≠ 0 := by
    intro c
    unfold cf_possible_moves at h
    rw [List.filter_eq_nil_iff] at h
    have hc := h c (List.mem_finRange c)
    simpa using hc
  have h7 : 0 < cf_board_min b := by
    unfold cf_board_min
    simp only [lt_min_iff]
    exact ⟨Nat.pos_of_ne_zero (hall 0), Nat.pos_of_ne_zero (hall 1),
      Nat.pos_of_ne_zero (hall 2), Nat.pos_of_ne_zero (hall 3),
      Nat.pos_of_ne_zero (hall 4), Nat.pos_of_ne_zero (hall 5),
      Nat.pos_of_ne_zero (hall 6)⟩
  unfold cf_is_over
  simp [h7]

/-- Claim C8, witness: the completely full board has no moves and is over. -/
theorem c8_no_moves_implies_over_witness : cf_is_over cf_b_full 1 = true :=
  c8_no_moves_implies_over cf_b_full 1 (by rfl)

/-- Claim C3, counterexample: column 0 of cf_b_colfull is full, so the move 0
is illegal, yet make_move neither fails nor leaves the board alone: it
overwrites the bottom cell (0,0), previously player 2's, with the
mover's number. -/
theorem c3_full_column_is_silently_overwritten :
    (0 : Fin 7) ∉ cf_possible_moves cf_b_colfull ∧
    cf_make_move cf_b_colfull 0 1 0 0 = 1 ∧
    cf_b_colfull 0 0 = 2 ∧
    cf_make_move cf_b_colfull 0 1 ≠ cf_b_colfull := by
  refine ⟨by decide, rfl, rfl, ?_⟩
  intro h
  have h2 : (1 : Nat) = 2 := by
    calc (1 : Nat) = cf_make_move cf_b_colfull 0 1 0 0 := rfl
      _ = cf_b_colfull 0 0 := congrFun (congrFun h 0) 0
      _ = 2 := rfl
  exact absurd h2 (by decide)

/-- Claim C3, amended: applying make_move to a full column never raises: the
argmin of the all-True mask is row 0, so the bottom cell of that column
is silently overwritten with nplayer and every other cell is kept. -/
theorem c3_full_column_writes_bottom_cell (b : CFBoard) (c : Fin 7)
    (p : Nat) (hfull : ∀ r : Fin 6, b r c ≠ 0) :
    ∀ (r' : Fin 6) (c' : Fin 7),
      cf_make_move b c p r' c' = if r' = 0 ∧ c' = c then p else b r' c' := by
  have hline : cf_line b c = 0 := by
    unfold cf_line
    rw [if_neg (hfull 0), if_neg (hfull 1), if_neg (hfull 2),
      if_neg (hfull 3), if_neg (hfull 4), if_neg (hfull 5)]
  intro r' c'
  unfold cf_make_move
  rw [hline]

/-- Claim C3, witness for the amended theorem on the concrete full column. -/
theorem c3_full_column_writes_bottom_cell_witness :
    cf_make_move cf_b_colfull 0 1 0 0 = 1 := by
  have h := c3_full_column_writes_bottom_cell cf_b_colfull 0 1
    (by decide) 0 0
  simpa using h

/- Section: the scan of loss_condition against the four-in-a-row
predicate. -/

theorem dstep_zero (p d : Int × Int) : dstep p d 0 = p := by
  unfold dstep
  simp

theorem dstep_one (p d : Int × Int) : dstep p d 1 = p + d := by
  unfold dstep
  simp [Prod.ext_iff]

theorem dstep_addl (p d : Int × Int) (k : Int) :
    dstep (p + d) d k = dstep p d (k + 1) := by
  unfold dstep
  simp only [Prod.fst_add, Prod.snd_add, Prod.ext_iff]
  constructor
  · ring
  · ring

theorem dstep_addr (p d : Int × Int) (k : Int) :
    dstep p d k + d = dstep p d (k + 1) := by
  unfold dstep
  simp only [Prod.fst_add, Prod.snd_add, Prod.ext_iff]
  constructor
  · ring
  · ring

theorem dstep_dstep (p d : Int × Int) (k j : Int) :
    dstep (dstep p d k) d j = dstep p d (k + j) := by
  unfold dstep
  simp only [Prod.ext_iff]
  constructor
  · ring
  · ring

theorem cf_ray4_eq_dstep (p d : Int × Int) :
    cf_ray4 p d = [dstep p d 0, dstep p d 1, dstep p d 2, dstep p d 3] := by
  unfold cf_ray4
  rw [dstep_zero, dstep_one]
  rw [show dstep p d 2 = p + d + d by
    rw [show (2 : Int) = 1 + 1 by norm_num, ← dstep_addr, dstep_one]]
  rw [show dstep p d 3 = p + d + d + d by
    rw [show (3 : Int) = 1 + 1 + 1 by norm_num, ← dstep_addr, ← dstep_addr,
      dstep_one]]

/-- cf_four_at, unfolded to its four in-bounds and cell facts in dstep
form. -/
theorem cf_four_at_iff (b : CFBoard) (v : Nat) (p d : Int × Int) :
    cf_four_at b v p d = true ↔
      (cf_in_bounds (dstep p d 0) = true ∧ cf_cell b (dstep p d 0) = v) ∧
      (cf_in_bounds (dstep p d 1) = true ∧ cf_cell b (dstep p d 1) = v) ∧
      (cf_in_bounds (dstep p d 2) = true ∧ cf_cell b (dstep p d 2) = v) ∧
      (cf_in_bounds (dstep p d 3) = true ∧ cf_cell b (dstep p d 3) = v) := by
  unfold cf_four_at
  rw [cf_ray4_eq_dstep]
  simp [List.all_cons, Bool.and_eq_true, beq_iff_eq, and_assoc]

/-- Soundness of the streak scan: if the scan reports success starting
with a streak whose history (the streak-many cells just behind the
current position) is in bounds and holds the target value, then four
consecutive cells hold the target. -/
theorem cf_scan_sound (b : CFBoard) (v : Nat) (d : Int × Int) :
    ∀ (fuel streak : Nat) (p : Int × Int), streak ≤ 3 →
      (∀ j : Nat, j < streak →
        cf_in_bounds (dstep p d (-(j + 1 : Int))) = true ∧
        cf_cell b (dstep p d (-(j + 1 : Int))) = v) →
      cf_scan b v fuel p d streak = true →
      ∃ q : Int × Int, cf_four_at b v q d = true := by
  intro fuel
  induction fuel with
  | zero =>
    intro streak p _ _ hscan
    exact absurd hscan (by simp [cf_scan])
  | succ fuel ih =>
    intro streak p hstreak hhist hscan
    unfold cf_scan at hscan
    by_cases hin : cf_in_bounds p = true
    · rw [if_pos hin] at hscan
      by_cases hcell : cf_cell b p = v
      · rw [if_pos hcell] at hscan
        by_cases h4 : streak + 1 = 4
        · have hs3 : streak = 3 := by omega
          subst hs3
          refine ⟨dstep p d (-3), ?_⟩
          rw [cf_four_at_iff]
          have e0 : dstep (dstep p d (-3)) d 0 = dstep p d (-3) := by
            rw [dstep_dstep]; norm_num
          have e1 : dstep (dstep p d (-3)) d 1 = dstep p d (-2) := by
            rw [dstep_dstep]; norm_num
          have e2 : dstep (dstep p d (-3)) d 2 = dstep p d (-1) := by
            rw [dstep_dstep]; norm_num
          have e3 : dstep (dstep p d (-3)) d 3 = p := by
            rw [dstep_dstep]; norm_num; exact dstep_zero p d
          have h0 := hhist 2 (by omega)
          have h1 := hhist 1 (by omega)
          have h2 := hhist 0 (by omega)
          norm_num at h0 h1 h2
          rw [e0, e1, e2, e3]
          exact ⟨h0, h1, h2, hin, hcell⟩
        · rw [if_neg h4] at hscan
          refine ih (streak + 1) (p + d) (by omega) ?_ hscan
          intro j hj
          rcases Nat.eq_zero_or_pos j with hj0 | hjpos
          · subst hj0
            rw [show dstep (p + d) d (-((0 : Nat) + 1 : Int)) = p by
              rw [dstep_addl]; norm_num [dstep_zero]]
            exact ⟨hin, hcell⟩
          · have hh := hhist (j - 1) (by omega)
            rw [show dstep (p + d) d (-(j + 1 : Int)) =
                dstep p d (-((j - 1 : Nat) + 1 : Int)) by
              rw [dstep_addl]
              congr 1
              have : ((j - 1 : Nat) : Int) = (j : Int) - 1 := by omega
              rw [this]
              ring]
            exact hh
      · rw [if_neg hcell] at hscan
        exact ih 0 (p + d) (by omega) (by intro j hj; omega) hscan
    · rw [if_neg hin] at hscan
      exact absurd hscan (by simp)

/-- Completeness of the streak scan, final run: with k+1 target cells
ahead (all in bounds, all holding the target) and the streak needing
exactly k+1 more hits to reach four, the scan succeeds. -/
theorem cf_scan_run (b : CFBoard) (v : Nat) (d : Int × Int) :
    ∀ (k fuel streak : Nat) (p : Int × Int),
      streak + (k + 1) = 4 → k + 1 ≤ fuel →
      (∀ i : Nat, i ≤ k →
        cf_in_bounds (dstep p d (i : Int)) = true ∧
        cf_cell b (dstep p d (i : Int)) = v) →
      cf_scan b v fuel p d streak = true := by
  intro k
  induction k with
  | zero =>
    intro fuel streak p hs hf hcells
    have h0 := hcells 0 (by omega)
    simp only [Nat.cast_zero, dstep_zero] at h0
    match fuel, hf with
    | fuel + 1, _ =>
      unfold cf_scan
      rw [if_pos h0.1, if_pos h0.2, if_pos (by omega : streak + 1 = 4)]
  | succ k ih =>
    intro fuel streak p hs hf hcells
    have h0 := hcells 0 (by omega)
    simp only [Nat.cast_zero, dstep_zero] at h0
    match fuel, hf with
    | fuel + 1, _ =>
      unfold cf_scan
      rw [if_pos h0.1, if_pos h0.2, if_neg (by omega : ¬streak + 1 = 4)]
      refine ih fuel (streak + 1) (p + d) (by omega) (by omega) ?_
      intro i hi
      have hc := hcells (i + 1) (by omega)
      rw [show dstep (p + d) d (i : Int) = dstep p d ((i + 1 : Nat) : Int) by
        rw [dstep_addl]; push_cast; ring_nf]
      exact hc

/-- Completeness of the streak scan, approach: if the first m+4
positions along the ray are all in bounds and the last four of them all
hold the target, the scan succeeds from the ray's start with any
initial streak at most 3 and fuel at least m+4. -/
theorem cf_scan_reaches (b : CFBoard) (v : Nat) (d : Int × Int) :
    ∀ (m fuel streak : Nat) (p : Int × Int),
      streak ≤ 3 → m + 4 ≤ fuel →
      (∀ i : Nat, i ≤ m + 3 → cf_in_bounds (dstep p d (i : Int)) = true) →
      (∀ i : Nat, m ≤ i → i ≤ m + 3 → cf_cell b (dstep p d (i : Int)) = v) →
      cf_scan b v fuel p d streak = true := by
  intro m
  induction m with
  | zero =>
    intro fuel streak p hstreak hf hb hc
    refine cf_scan_run b v d (3 - streak) fuel streak p (by omega)
      (by omega) ?_
    intro i hi
    exact ⟨hb i (by omega), hc i (by omega) (by omega)⟩
  | succ m ih =>
    intro fuel streak p hstreak hf hb hc
    have h0 := hb 0 (by omega)
    simp only [Nat.cast_zero, dstep_zero] at h0
    match fuel, hf with
    | fuel + 1, _ =>
      have hshift : ∀ i : Nat,
          dstep (p + d) d (i : Int) = dstep p d ((i + 1 : Nat) : Int) := by
        intro i
        rw [dstep_addl]; push_cast; ring_nf
      have hb' : ∀ i : Nat, i ≤ m + 3 →
          cf_in_bounds (dstep (p + d) d (i : Int)) = true := by
        intro i hi
        rw [hshift i]
        exact hb (i + 1) (by omega)
      have hc' : ∀ i : Nat, m ≤ i → i ≤ m + 3 →
          cf_cell b (dstep (p + d) d (i : Int)) = v := by
        intro i hi1 hi2
        rw [hshift i]
        exact hc (i + 1) (by omega) (by omega)
      unfold cf_scan
      rw [if_pos h0]
      by_cases hcell : cf_cell b p = v
      · rw [if_pos hcell]
        by_cases h4 : streak + 1 = 4
        · rw [if_pos h4]
        · rw [if_neg h4]
          exact ih fuel (streak + 1) (p + d) (by omega) (by omega) hb' hc'
      · rw [if_neg hcell]
        exact ih fuel 0 (p + d) (by omega) (by omega) hb' hc'

/-- Any horizontal four-in-a-row is found by the scan of its row line. -/
theorem cf_cover_horiz (b : CFBoard) (v : Nat) (r c : Nat)
    (hfour : cf_four_at b v ((r : Int), (c : Int)) (0, 1) = true) :
    (cf_pos_dir.any fun pd => cf_scan b v 13 pd.1 pd.2 0) = true := by
  rw [cf_four_at_iff] at hfour
  obtain ⟨⟨hb0, hc0⟩, ⟨hb1, hc1⟩, ⟨hb2, hc2⟩, ⟨hb3, hc3⟩⟩ := hfour
  simp only [cf_in_bounds, dstep, decide_eq_true_eq, mul_zero, mul_one,
    zero_mul, one_mul, add_zero, zero_add, mul_neg] at hb0 hb3
  rw [List.any_eq_true]
  refine ⟨(((r : Int), 0), (0, 1)), ?_, ?_⟩
  · have hr5 : r ≤ 5 := by omega
    interval_cases r <;> decide
  · refine cf_scan_reaches b v (0, 1) c 13 0 ((r : Int), 0) (by omega)
      (by omega) ?_ ?_
    · intro i hi
      simp only [cf_in_bounds, dstep, decide_eq_true_eq, mul_zero, mul_one,
        zero_mul, one_mul, add_zero, zero_add]
      omega
    · intro i hi1 hi2
      have hcase : i = c ∨ i = c + 1 ∨ i = c + 2 ∨ i = c + 3 := by omega
      rcases hcase with h | h | h | h
      · rw [show dstep ((r : Int), 0) (0, 1) (i : Int) =
            dstep ((r : Int), (c : Int)) (0, 1) 0 by
          simp only [dstep, Prod.mk.injEq, mul_zero, mul_one, zero_mul,
            one_mul, add_zero, zero_add, true_and, and_true]
          omega]
        exact hc0
      · rw [show dstep ((r : Int), 0) (0, 1) (i : Int) =
            dstep ((r : Int), (c : Int)) (0, 1) 1 by
          simp only [dstep, Prod.mk.injEq, mul_zero, mul_one, zero_mul,
            one_mul, add_zero, zero_add, true_and, and_true]
          omega]
        exact hc1
      · rw [show dstep ((r : Int), 0) (0, 1) (i : Int) =
            dstep ((r : Int), (c : Int)) (0, 1) 2 by
          simp only [dstep, Prod.mk.injEq, mul_zero, mul_one, zero_mul,
            one_mul, add_zero, zero_add, true_and, and_true]
          omega]
        exact hc2
      · rw [show dstep ((r : Int), 0) (0, 1) (i : Int) =
            dstep ((r : Int), (c : Int)) (0, 1) 3 by
          simp only [dstep, Prod.mk.injEq, mul_zero, mul_one, zero_mul,
            one_mul, add_zero, zero_add, true_and, and_true]
          omega]
        exact hc3

/-- Any vertical four-in-a-row is found by the scan of its column line. -/
theorem cf_cover_vert (b : CFBoard) (v : Nat) (r c : Nat)
    (hfour : cf_four_at b v ((r : Int), (c : Int)) (1, 0) = true) :
    (cf_pos_dir.any fun pd => cf_scan b v 13 pd.1 pd.2 0) = true := by
  rw [cf_four_at_iff] at hfour
  obtain ⟨⟨hb0, hc0⟩, ⟨hb1, hc1⟩, ⟨hb2, hc2⟩, ⟨hb3, hc3⟩⟩ := hfour
  simp only [cf_in_bounds, dstep, decide_eq_true_eq, mul_zero, mul_one,
    zero_mul, one_mul, add_zero, zero_add, mul_neg] at hb0 hb3
  rw [List.any_eq_true]
  refine ⟨((0, (c : Int)), (1, 0)), ?_, ?_⟩
  · have hc6 : c ≤ 6 := by omega
    interval_cases c <;> decide
  · refine cf_scan_reaches b v (1, 0) r 13 0 (0, (c : Int)) (by omega)
      (by omega) ?_ ?_
    · intro i hi
      simp only [cf_in_bounds, dstep, decide_eq_true_eq, mul_zero, mul_one,
        zero_mul, one_mul, add_zero, zero_add]
      omega
    · intro i hi1 hi2
      have hcase : i = r ∨ i = r + 1 ∨ i = r + 2 ∨ i = r + 3 := by omega
      rcases hcase with h | h | h | h
      · rw [show dstep (0, (c : Int)) (1, 0) (i : Int) =
            dstep ((r : Int), (c : Int)) (1, 0) 0 by
          simp only [dstep, Prod.mk.injEq, mul_zero, mul_one, zero_mul,
            one_mul, add_zero, zero_add, true_and, and_true]
          omega]
        exact hc0
      · rw [show dstep (0, (c : Int)) (1, 0) (i : Int) =
            dstep ((r : Int), (c : Int)) (1, 0) 1 by
          simp only [dstep, Prod.mk.injEq, mul_zero, mul_one, zero_mul,
            one_mul, add_zero, zero_add, true_and, and_true]
          omega]
        exact hc1
      · rw [show dstep (0, (c : Int)) (1, 0) (i : Int) =
            dstep ((r : Int), (c : Int)) (1, 0) 2 by
          simp only [dstep, Prod.mk.injEq, mul_zero, mul_one, zero_mul,
            one_mul, add_zero, zero_add, true_and, and_true]
          omega]
        exact hc2
      · rw [show dstep (0, (c : Int)) (1, 0) (i : Int) =
            dstep ((r : Int), (c : Int)) (1, 0) 3 by
          simp only [dstep, Prod.mk.injEq, mul_zero, mul_one, zero_mul,
            one_mul, add_zero, zero_add, true_and, and_true]
          omega]
        exact hc3

/-- Any down-right diagonal four-in-a-row is found by the scan of its
diagonal line. -/
theorem cf_cover_diag (b : CFBoard) (v : Nat) (r c : Nat)
    (hfour : cf_four_at b v ((r : Int), (c : Int)) (1, 1) = true) :
    (cf_pos_dir.any fun pd => cf_scan b v 13 pd.1 pd.2 0) = true := by
  rw [cf_four_at_iff] at hfour
  obtain ⟨⟨hb0, hc0⟩, ⟨hb1, hc1⟩, ⟨hb2, hc2⟩, ⟨hb3, hc3⟩⟩ := hfour
  simp only [cf_in_bounds, dstep, decide_eq_true_eq, mul_zero, mul_one,
    zero_mul, one_mul, add_zero, zero_add, mul_neg] at hb0 hb3
  rw [List.any_eq_true]
  by_cases hcr : c ≤ r
  · refine ⟨(((r : Int) - (c : Int), 0), (1, 1)), ?_, ?_⟩
    · rcases (by omega : (r : Int) - (c : Int) = 0 ∨
          (r : Int) - (c : Int) = 1 ∨ (r : Int) - (c : Int) = 2) with
        h0 | h0 | h0 <;> rw [h0] <;> decide
    · refine cf_scan_reaches b v (1, 1) c 13 0 ((r : Int) - (c : Int), 0)
        (by omega) (by omega) ?_ ?_
      · intro i hi
        simp only [cf_in_bounds, dstep, decide_eq_true_eq, mul_zero,
          mul_one, zero_mul, one_mul, add_zero, zero_add]
        omega
      · intro i hi1 hi2
        have hcase : i = c ∨ i = c + 1 ∨ i = c + 2 ∨ i = c + 3 := by omega
        rcases hcase with h | h | h | h
        · rw [show dstep ((r : Int) - (c : Int), 0) (1, 1) (i : Int) =
              dstep ((r : Int), (c : Int)) (1, 1) 0 by
            simp only [dstep, Prod.mk.injEq, mul_zero, mul_one, zero_mul,
              one_mul, add_zero, zero_add, true_and, and_true]
            omega]
          exact hc0
        · rw [show dstep ((r : Int) - (c : Int), 0) (1, 1) (i : Int) =
              dstep ((r : Int), (c : Int)) (1, 1) 1 by
            simp only [dstep, Prod.mk.injEq, mul_zero, mul_one, zero_mul,
              one_mul, add_zero, zero_add, true_and, and_true]
            omega]
          exact hc1
        · rw [show dstep ((r : Int) - (c : Int), 0) (1, 1) (i : Int) =
              dstep ((r : Int), (c : Int)) (1, 1) 2 by
            simp only [dstep, Prod.mk.injEq, mul_zero, mul_one, zero_mul,
              one_mul, add_zero, zero_add, true_and, and_true]
            omega]
          exact hc2
        · rw [show dstep ((r : Int) - (c : Int), 0) (1, 1) (i : Int) =
              dstep ((r : Int), (c : Int)) (1, 1) 3 by
            simp only [dstep, Prod.mk.injEq, mul_zero, mul_one, zero_mul,
              one_mul, add_zero, zero_add, true_and, and_true]
            omega]
          exact hc3
  · refine ⟨((0, (c : Int) - (r : Int)), (1, 1)), ?_, ?_⟩
    · rcases (by omega : (c : Int) - (r : Int) = 1 ∨
          (c : Int) - (r : Int) = 2 ∨ (c : Int) - (r : Int) = 3) with
        h0 | h0 | h0 <;> rw [h0] <;> decide
    · refine cf_scan_reaches b v (1, 1) r 13 0 (0, (c : Int) - (r : Int))
        (by omega) (by omega) ?_ ?_
      · intro i hi
        simp only [cf_in_bounds, dstep, decide_eq_true_eq, mul_zero,
          mul_one, zero_mul, one_mul, add_zero, zero_add]
        omega
      · intro i hi1 hi2
        have hcase : i = r ∨ i = r + 1 ∨ i = r + 2 ∨ i = r + 3 := by omega
        rcases hcase with h | h | h | h
        · rw [show dstep (0, (c : Int) - (r : Int)) (1, 1) (i : Int) =
              dstep ((r : Int), (c : Int)) (1, 1) 0 by
            simp only [dstep, Prod.mk.injEq, mul_zero, mul_one, zero_mul,
              one_mul, add_zero, zero_add, true_and, and_true]
            omega]
          exact hc0
        · rw [show dstep (0, (c : Int) - (r : Int)) (1, 1) (i : Int) =
              dstep ((r : Int), (c : Int)) (1, 1) 1 by
            simp only [dstep, Prod.mk.injEq, mul_zero, mul_one, zero_mul,
              one_mul, add_zero, zero_add, true_and, and_true]
            omega]
          exact hc1
        · rw [show dstep (0, (c : Int) - (r : Int)) (1, 1) (i : Int) =
              dstep ((r : Int), (c : Int)) (1, 1) 2 by
            simp only [dstep, Prod.mk.injEq, mul_zero, mul_one, zero_mul,
              one_mul, add_zero, zero_add, true_and, and_true]
            omega]
          exact hc2
        · rw [show dstep (0, (c : Int) - (r : Int)) (1, 1) (i : Int) =
              dstep ((r : Int), (c : Int)) (1, 1) 3 by
            simp only [dstep, Prod.mk.injEq, mul_zero, mul_one, zero_mul,
              one_mul, add_zero, zero_add, true_and, and_true]
            omega]
          exact hc3

/-- Any down-left diagonal four-in-a-row is found by the scan of its
anti-diagonal line. -/
theorem cf_cover_anti (b : CFBoard) (v : Nat) (r c : Nat)
    (hfour : cf_four_at b v ((r : Int), (c : Int)) (1, -1) = true) :
    (cf_pos_dir.any fun pd => cf_scan b v 13 pd.1 pd.2 0) = true := by
  rw [cf_four_at_iff] at hfour
  obtain ⟨⟨hb0, hc0⟩, ⟨hb1, hc1⟩, ⟨hb2, hc2⟩, ⟨hb3, hc3⟩⟩ := hfour
  simp only [cf_in_bounds, dstep, decide_eq_true_eq, mul_zero, mul_one,
    zero_mul, one_mul, add_zero, zero_add, mul_neg] at hb0 hb3
  rw [List.any_eq_true]
  by_cases hrc : r + c ≤ 6
  · refine ⟨((0, (r : Int) + (c : Int)), (1, -1)), ?_, ?_⟩
    · rcases (by omega : (r : Int) + (c : Int) = 3 ∨
          (r : Int) + (c : Int) = 4 ∨ (r : Int) + (c : Int) = 5 ∨
          (r : Int) + (c : Int) = 6) with h0 | h0 | h0 | h0 <;>
        rw [h0] <;> decide
    · refine cf_scan_reaches b v (1, -1) r 13 0 (0, (r : Int) + (c : Int))
        (by omega) (by omega) ?_ ?_
      · intro i hi
        simp only [cf_in_bounds, dstep, decide_eq_true_eq, mul_zero,
          mul_one, zero_mul, one_mul, add_zero, zero_add, mul_neg]
        omega
      · intro i hi1 hi2
        have hcase : i = r ∨ i = r + 1 ∨ i = r + 2 ∨ i = r + 3 := by omega
        rcases hcase with h | h | h | h
        · rw [show dstep (0, (r : Int) + (c : Int)) (1, -1) (i : Int) =
              dstep ((r : Int), (c : Int)) (1, -1) 0 by
            simp only [dstep, Prod.mk.injEq, mul_zero, mul_one, zero_mul,
              one_mul, add_zero, zero_add, mul_neg, true_and, and_true]
            omega]
          exact hc0
        · rw [show dstep (0, (r : Int) + (c : Int)) (1, -1) (i : Int) =
              dstep ((r : Int), (c : Int)) (1, -1) 1 by
            simp only [dstep, Prod.mk.injEq, mul_zero, mul_one, zero_mul,
              one_mul, add_zero, zero_add, mul_neg, true_and, and_true]
            omega]
          exact hc1
        · rw [show dstep (0, (r : Int) + (c : Int)) (1, -1) (i : Int) =
              dstep ((r : Int), (c : Int)) (1, -1) 2 by
            simp only [dstep, Prod.mk.injEq, mul_zero, mul_one, zero_mul,
              one_mul, add_zero, zero_add, mul_neg, true_and, and_true]
            omega]
          exact hc2
        · rw [show dstep (0, (r : Int) + (c : Int)) (1, -1) (i : Int) =
              dstep ((r : Int), (c : Int)) (1, -1) 3 by
            simp only [dstep, Prod.mk.injEq, mul_zero, mul_one, zero_mul,
              one_mul, add_zero, zero_add, mul_neg, true_and, and_true]
            omega]
          exact hc3
  · refine ⟨(((r : Int) + (c : Int) - 6, 6), (1, -1)), ?_, ?_⟩
    · rcases (by omega : (r : Int) + (c : Int) - 6 = 1 ∨
          (r : Int) + (c : Int) - 6 = 2) with h0 | h0 <;>
        rw [h0] <;> decide
    · refine cf_scan_reaches b v (1, -1) (6 - c) 13 0
        ((r : Int) + (c : Int) - 6, 6) (by omega) (by omega) ?_ ?_
      · intro i hi
        simp only [cf_in_bounds, dstep, decide_eq_true_eq, mul_zero,
          mul_one, zero_mul, one_mul, add_zero, zero_add, mul_neg]
        omega
      · intro i hi1 hi2
        have hcase : i = (6 - c) ∨ i = (6 - c) + 1 ∨ i = (6 - c) + 2 ∨
            i = (6 - c) + 3 := by omega
        rcases hcase with h | h | h | h
        · rw [show dstep ((r : Int) + (c : Int) - 6, 6) (1, -1) (i : Int) =
              dstep ((r : Int), (c : Int)) (1, -1) 0 by
            simp only [dstep, Prod.mk.injEq, mul_zero, mul_one, zero_mul,
              one_mul, add_zero, zero_add, mul_neg, true_and, and_true]
            omega]
          exact hc0
        · rw [show dstep ((r : Int) + (c : Int) - 6, 6) (1, -1) (i : Int) =
              dstep ((r : Int), (c : Int)) (1, -1) 1 by
            simp only [dstep, Prod.mk.injEq, mul_zero, mul_one, zero_mul,
              one_mul, add_zero, zero_add, mul_neg, true_and, and_true]
            omega]
          exact hc1
        · rw [show dstep ((r : Int) + (c : Int) - 6, 6) (1, -1) (i : Int) =
              dstep ((r : Int), (c : Int)) (1, -1) 2 by
            simp only [dstep, Prod.mk.injEq, mul_zero, mul_one, zero_mul,
              one_mul, add_zero, zero_add, mul_neg, true_and, and_true]
            omega]
          exact hc2
        · rw [show dstep ((r : Int) + (c : Int) - 6, 6) (1, -1) (i : Int) =
              dstep ((r : Int), (c : Int)) (1, -1) 3 by
            simp only [dstep, Prod.mk.injEq, mul_zero, mul_one, zero_mul,
              one_mul, add_zero, zero_add, mul_neg, true_and, and_true]
            omega]
          exact hc3

/-- Forward direction: a successful line scan exhibits four in a row. -/
theorem cf_scan_any_imp_has_four (b : CFBoard) (v : Nat)
    (h : (cf_pos_dir.any fun pd => cf_scan b v 13 pd.1 pd.2 0) = true) :
    cf_has_four b v = true := by
  rw [List.any_eq_true] at h
  obtain ⟨pd, hmem, hscan⟩ := h
  obtain ⟨q, hq⟩ := cf_scan_sound b v pd.2 13 0 pd.1 (by omega)
    (by intro j hj; exact absurd hj (by omega)) hscan
  have h0 := ((cf_four_at_iff b v q pd.2).mp hq).1.1
  rw [dstep_zero] at h0
  simp only [cf_in_bounds, decide_eq_true_eq] at h0
  have hd : pd.2 ∈ cf_dirs :=
    (by decide : ∀ x ∈ cf_pos_dir, x.2 ∈ cf_dirs) pd hmem
  unfold cf_has_four
  rw [List.any_eq_true]
  refine ⟨q.1.toNat, ?_, ?_⟩
  · rw [List.mem_range]; omega
  · rw [List.any_eq_true]
    refine ⟨q.2.toNat, ?_, ?_⟩
    · rw [List.mem_range]; omega
    · rw [List.any_eq_true]
      refine ⟨pd.2, hd, ?_⟩
      rw [show ((q.1.toNat : Int), (q.2.toNat : Int)) = q from
        Prod.ext_iff.mpr ⟨by omega, by omega⟩]
      exact hq

/-- Backward direction: any four in a row is caught by one of the 25
scan lines. -/
theorem cf_has_four_imp_scan_any (b : CFBoard) (v : Nat)
    (h : cf_has_four b v = true) :
    (cf_pos_dir.any fun pd => cf_scan b v 13 pd.1 pd.2 0) = true := by
  unfold cf_has_four at h
  rw [List.any_eq_true] at h
  obtain ⟨r, hr, h⟩ := h
  rw [List.any_eq_true] at h
  obtain ⟨c, hc, h⟩ := h
  rw [List.any_eq_true] at h
  obtain ⟨d, hd, hfour⟩ := h
  simp only [cf_dirs, List.mem_cons, List.not_mem_nil, or_false] at hd
  rcases hd with rfl | rfl | rfl | rfl
  · exact cf_cover_horiz b v r c hfour
  · exact cf_cover_vert b v r c hfour
  · exact cf_cover_diag b v r c hfour
  · exact cf_cover_anti b v r c hfour

/-- The streak scan over the 25 construction lines agrees exactly with
the four-in-a-row predicate, for every board and target value. -/
theorem cf_scan_any_eq_has_four (b : CFBoard) (v : Nat) :
    (cf_pos_dir.any fun pd => cf_scan b v 13 pd.1 pd.2 0) =
      cf_has_four b v := by
  rcases Bool.eq_false_or_eq_true
    (cf_pos_dir.any fun pd => cf_scan b v 13 pd.1 pd.2 0) with h | h
  · rw [h]
    exact (cf_scan_any_imp_has_four b v h).symm
  · rcases Bool.eq_false_or_eq_true (cf_has_four b v) with h2 | h2
    · exact absurd (cf_has_four_imp_scan_any b v h2) (by simp [h])
    · rw [h, h2]

/-- loss_condition holds exactly when the mover's opponent has four in
a row. -/
theorem cf_loss_condition_eq_has_four (b : CFBoard) (np : Nat) :
    cf_loss_condition b np = cf_has_four b (nopponent np) := by
  unfold cf_loss_condition
  exact cf_scan_any_eq_has_four b (nopponent np)

/-- Claim C7, counterexample: at the exhausted pile (0 coins), the state the
specification's scenario rule (win = opponent faces 0 coins) classifies
as a loss for the player to move, LastCoinStanding.scoring returns +100:
a positive value, not the fixed large-negative sentinel. -/
theorem c7_lcs_mover_lost_gets_plus_100 :
    lcs_mover_lost_spec 0 = true ∧ lcs_scoring 0 = 100 ∧
    ¬((100 : Int) < 0) ∧ (100 : Int) ≠ -100 := by
  refine ⟨rfl, rfl, by norm_num, by norm_num⟩

/-- Claim C7, amended: ConnectFour.scoring returns -100 exactly when the
mover's opponent has four in a row and 0 otherwise; LastCoinStanding
does NOT exhibit the negative sentinel at its terminal states: its
win() method declares the player FACING the exhausted pile the winner,
scoring returns +100 there and 0 elsewhere, and the value -100 never
occurs. -/
theorem c7_sign_convention :
    (∀ (b : CFBoard) (np : Nat),
      (cf_scoring b np = -100 ↔ cf_has_four b (nopponent np) = true) ∧
      (cf_scoring b np = 0 ↔ cf_has_four b (nopponent np) = false)) ∧
    (∀ n : Int,
      (lcs_scoring n = 100 ↔ lcs_win n = true) ∧ lcs_scoring n ≠ -100) := by
  constructor
  · intro b np
    unfold cf_scoring
    rw [cf_loss_condition_eq_has_four]
    rcases Bool.eq_false_or_eq_true (cf_has_four b (nopponent np)) with
      h | h
    · rw [h]
      norm_num
    · rw [h]
      norm_num
  · intro n
    unfold lcs_scoring
    rcases Bool.eq_false_or_eq_true (lcs_win n) with h | h
    · rw [h]
      norm_num
    · rw [h]
      norm_num
